import Mathlib

/-!
# Logrole: access policy, secret key provisioning, duration display

A shallow embedding of the policy engine of `config/permission.go`
(`Policy.Lookup`, `Policy.Users`, `validatePolicy`, `Policy.UnmarshalYAML`),
of `getSecretKey` (`commands/server/main.go`), of the secret key check at the
head of `NewServer` (`server/serve.go`) and of `services.Duration`
(`services/services.go`), followed by the properties proved about them.

Conventions.
* A Go pointer that may be nil is an `Option`; a slice is a `List`. The
  elements of a `Policy` (`[]*Group`) are taken to point at groups.
* `UserSettings`, `User`, `NewUser` and `AllUserSettings` are declared in
  another file of package `config`, outside `permission.go`: the two types
  are the parameters `σ` and `υ`, the two functions are parameters of the
  definitions that call them.
* A Go `error` built on the spot from a message is the message; `none` is the
  nil error.
-/

namespace Logrole

/-! ## Data model (`config/permission.go`, lines 12-26) -/

/-- Group of the access policy. `Permissions` is a pointer in the source,
`none` is the nil pointer. -/
structure Group (σ : Type) where
  Permissions : Option σ
  Name : String
  Default : Bool
  Users : List String

/-- Policy is the ordered list of groups (`type Policy []*Group`). A pointer to
a policy, which may be nil, is an `Option (Policy σ)`. -/
abbrev Policy (σ : Type) := List (Group σ)

/-- The three values `Policy.Lookup` returns: `(*User, bool, error)`. -/
structure LookupResult (υ : Type) where
  user : Option υ
  found : Bool
  err : Option String

/-! ## `Policy.Lookup` (lines 61-80) -/

/-- The message of the error `Lookup` ends with (line 79). -/
def lookupNotFound (id : String) : String :=
  "User " ++ id ++ " not found in the policy, and no default configured"

/-- The loop of `Lookup` over the groups (lines 66-75) and what follows it
(lines 76-79); `defaultGroup` is the loop's variable of that name. -/
def lookupLoop {σ υ : Type} (NewUser : Option σ → υ) (id : String) :
    List (Group σ) → Option (Group σ) → LookupResult υ
  | [], defaultGroup =>
    match defaultGroup with
    | some g => ⟨some (NewUser g.Permissions), false, none⟩
    | none => ⟨none, false, some (lookupNotFound id)⟩
  | group :: rest, defaultGroup =>
    if group.Users.any (fun user => user == id) then
      ⟨some (NewUser group.Permissions), true, none⟩
    else
      lookupLoop NewUser id rest (if group.Default == true then some group else defaultGroup)

/-- Lookup of a principal id in the policy behind the pointer `p`. -/
def Policy.Lookup {σ υ : Type} (NewUser : Option σ → υ) (p : Option (Policy σ)) (id : String) :
    LookupResult υ :=
  match p with
  | none => ⟨none, false, some "nil policy"⟩
  | some groups => lookupLoop NewUser id groups none

/-! ## `validatePolicy` (lines 101-132)

The two maps `users` and `names` of the source are only ever asked whether a
key is present (`_, ok := m[k]`) and given the value `true`: each is modelled
by the list of its keys, newest first. -/

/-- The loop over the members of one group (lines 122-129): the error of line
126 at the first member already in `users`, else `users` with the group's
members added. -/
def validateUsers (users : List String) : List String → Except String (List String)
  | [] => .ok users
  | user :: rest =>
    if users.contains user then
      .error ("User " ++ user ++ " appears twice in the list")
    else
      validateUsers (user :: users) rest

/-- The loop of `validatePolicy` over the groups (lines 108-130) and the
`return nil` after it. The nested test of lines 116-121 is the one condition
`group.Default == true && defaultCount > 1` on the incremented counter. -/
def validateLoop {σ : Type} :
    List (Group σ) → List String → List String → Nat → Option String
  | [], _, _, _ => none
  | group :: rest, users, names, defaultCount =>
    if group.Name == "" then
      some "Group has no name, define a group name"
    else if names.contains group.Name then
      some ("Group name " ++ group.Name ++ " appears twice in the list")
    else
      let names := group.Name :: names
      let defaultCount := if group.Default == true then defaultCount + 1 else defaultCount
      if group.Default == true && decide (defaultCount > 1) then
        some "More than one group marked as default"
      else
        match validateUsers users group.Users with
        | .error e => some e
        | .ok users => validateLoop rest users names defaultCount

/-- Validation of the policy behind the pointer `p`; `none` is the nil error. -/
def validatePolicy {σ : Type} (p : Option (Policy σ)) : Option String :=
  match p with
  | none => none
  | some groups => validateLoop groups [] [] 0

/-! ## `Policy.UnmarshalYAML` (lines 19-53) -/

/-- PolicyPolicy is the wrapper document: the policy under the key `policy`. -/
structure PolicyPolicy (σ : Type) where
  Policy : Option (List (Group σ))

/-- The callback `unmarshal func(interface{}) error` that the decoder hands to
`UnmarshalYAML`. The source calls it on two targets: a fresh `*PolicyPolicy`
(line 38) and a `*yamlPolicy` holding the current policy (line 43). Each field
is the callback on one of them: the error it returns, or the value the target
holds after the call. -/
structure Unmarshal (σ : Type) where
  intoPolicyPolicy : Except String (PolicyPolicy σ)
  intoYamlPolicy : List (Group σ) → Except String (List (Group σ))

/-- The loop of lines 46-50: every group with nil `Permissions` gets
`AllUserSettings()`. -/
def fillPermissions {σ : Type} (AllUserSettings : σ) (yp : List (Group σ)) : List (Group σ) :=
  yp.map (fun group =>
    if group.Permissions.isNone then { group with Permissions := some AllUserSettings }
    else group)

/-- UnmarshalYAML on the policy behind the receiver `p` (a nil receiver is
replaced by a new, empty policy, lines 32-34). The result is the error
returned, or the policy the receiver holds when nil is returned. -/
def Policy.UnmarshalYAML {σ : Type} (AllUserSettings : σ) (p : Option (Policy σ))
    (unmarshal : Unmarshal σ) : Except String (Policy σ) :=
  let p : Policy σ := match p with
    | none => []
    | some v => v
  let bare : Except String (Policy σ) :=
    match unmarshal.intoYamlPolicy p with
    | .error err => .error err
    | .ok yp => .ok (fillPermissions AllUserSettings yp)
  match unmarshal.intoPolicyPolicy with
  | .ok ⟨some pol⟩ => if pol.length > 0 then .ok pol else bare
  | _ => bare

/-- A policy document in one of the two accepted shapes: the bare list of
groups, or that list under the key `policy`. A group of the document has
`Permissions = none` when the document gives it no `permissions`. -/
inductive PolicyDocument (σ : Type) where
  | bare (groups : List (Group σ))
  | wrapped (groups : List (Group σ))

/-- The groups written in a policy document. -/
def PolicyDocument.groups {σ : Type} : PolicyDocument σ → List (Group σ)
  | .bare groups => groups
  | .wrapped groups => groups

/-- The type error the decoder reports when the node does not fit the target. -/
def yamlTypeError : String := "yaml: unmarshal errors"

/-- The callback of the YAML decoder (`gopkg.in/yaml.v2`, a library outside
this repository) on a sequence of groups. Into a `yamlPolicy`, a slice type
without an unmarshaler of its own, the sequence decodes to the groups as
written, whatever the slice held; into the struct `PolicyPolicy` it is a type
error. -/
def yamlUnmarshalSequence {σ : Type} (groups : List (Group σ)) : Unmarshal σ where
  intoPolicyPolicy := .error yamlTypeError
  intoYamlPolicy := fun _ => .ok groups

/-- The callback of the YAML decoder on a policy document. For the mapping
with the key `policy`: into `PolicyPolicy`, the decoder fills the field
`Policy *Policy` by allocating a policy and, `*Policy` having the method
`UnmarshalYAML`, calling that method with the callback on the node under the
key; into a `yamlPolicy` the mapping is a type error. -/
def yamlUnmarshal {σ : Type} (AllUserSettings : σ) : PolicyDocument σ → Unmarshal σ
  | .bare groups => yamlUnmarshalSequence groups
  | .wrapped groups =>
    { intoPolicyPolicy :=
        match Policy.UnmarshalYAML AllUserSettings (some []) (yamlUnmarshalSequence groups) with
        | .ok pol => .ok ⟨some pol⟩
        | .error err => .error err
      intoYamlPolicy := fun _ => .error yamlTypeError }

/-! ## `Policy.Users` (lines 84-95)

The Go map `map[string]*User` is modelled by the list of its entries, one for
each key. -/

/-- The assignment `m[k] = v` of a Go map. -/
def mapSet {υ : Type} (m : List (String × υ)) (k : String) (v : υ) : List (String × υ) :=
  (k, v) :: m.filter (fun e => e.1 != k)

/-- The read `m[k]` of a Go map, `none` when the key is absent. -/
def mapGet {υ : Type} (m : List (String × υ)) (k : String) : Option υ :=
  List.lookup k m

/-- Users of the policy behind the pointer `p`: the map from every member id
to the user built from its group's permissions. -/
def Policy.Users {σ υ : Type} (NewUser : Option σ → υ) (p : Option (Policy σ)) :
    List (String × υ) :=
  match p with
  | none => []
  | some groups =>
    groups.foldl (fun users group =>
      group.Users.foldl (fun users user => mapSet users user (NewUser group.Permissions)) users) []

/-! ## `getSecretKey` (`commands/server/main.go`, lines 53-73)

A Go string and a byte slice are lists of bytes, each byte a natural number
below 256; the length of a string is its number of bytes, as `len` gives it.
A text with a character outside ASCII has more bytes than characters
(`stringBytes`). `encoding/hex` is the Go standard library:
`fromHexChar`, `DecodeString` and `EncodeToString` follow its source. -/

/-- The errors `getSecretKey` can return: its own `errWrongLength` (line 53)
and the two errors of `encoding/hex`. -/
inductive KeyError where
  | errWrongLength
  | InvalidByteError (b : Nat)
  | ErrLength
  deriving DecidableEq, Repr

/-- The value of one hexadecimal digit (`encoding/hex`), `none` for a byte that
is no hexadecimal digit. -/
def fromHexChar (c : Nat) : Option Nat :=
  if 48 ≤ c ∧ c ≤ 57 then some (c - 48)
  else if 97 ≤ c ∧ c ≤ 102 then some (c - 97 + 10)
  else if 65 ≤ c ∧ c ≤ 70 then some (c - 65 + 10)
  else none

/-- DecodeString of `encoding/hex`: the bytes the pairs of digits stand for, or
the error at the first byte that is no digit, or `ErrLength` for an odd
length. -/
def DecodeString : List Nat → Except KeyError (List Nat)
  | [] => .ok []
  | [c] =>
    match fromHexChar c with
    | none => .error (.InvalidByteError c)
    | some _ => .error .ErrLength
  | p :: q :: rest =>
    match fromHexChar p with
    | none => .error (.InvalidByteError p)
    | some a =>
      match fromHexChar q with
      | none => .error (.InvalidByteError q)
      | some b =>
        match DecodeString rest with
        | .error err => .error err
        | .ok dst => .ok (((a <<< 4) ||| b) :: dst)

/-- The table `"0123456789abcdef"` of `encoding/hex`. -/
def hextable : List Nat :=
  [48, 49, 50, 51, 52, 53, 54, 55, 56, 57, 97, 98, 99, 100, 101, 102]

/-- EncodeToString of `encoding/hex`: two digits for every byte. -/
def EncodeToString (src : List Nat) : List Nat :=
  src.flatMap (fun v => [hextable.getD (v >>> 4) 0, hextable.getD (v &&& 0x0f) 0])

/-- The statements `secretKey := new([32]byte); copy(secretKey[:], b)` of lines
70-71: the first 32 bytes of `b`, followed by zero bytes up to 32. -/
def copyToKey (b : List Nat) : List Nat :=
  b.take 32 ++ List.replicate (32 - (b.take 32).length) 0

/-- The secret key for the configured string `hexKey`. `NewRandomKey` is the
key `services.NewRandomKey()` returns on this call (a function declared
outside `services.go`). -/
def getSecretKey (NewRandomKey : List Nat) (hexKey : List Nat) : Except KeyError (List Nat) :=
  if hexKey = [] then .ok NewRandomKey
  else if hexKey.length ≠ 64 then .error .errWrongLength
  else
    match DecodeString hexKey with
    | .error err => .error err
    | .ok secretKeyBytes => .ok (copyToKey secretKeyBytes)

/-- A byte is a hexadecimal digit: `0-9`, `a-f` or `A-F`. -/
def IsHexDigit (c : Nat) : Prop :=
  (48 ≤ c ∧ c ≤ 57) ∨ (97 ≤ c ∧ c ≤ 102) ∨ (65 ≤ c ∧ c ≤ 70)

instance : DecidablePred IsHexDigit := fun c => by
  unfold IsHexDigit
  infer_instance

/-- The number a hexadecimal digit stands for. -/
def hexDigitValue (c : Nat) : Nat :=
  if c ≤ 57 then c - 48 else if c ≤ 70 then c - 55 else c - 87

/-- The lower case form of an ASCII letter, every other byte unchanged. -/
def asciiLower (c : Nat) : Nat :=
  if 65 ≤ c ∧ c ≤ 90 then c + 32 else c

/-- The UTF-8 encoding of one character, given by its code point: the bytes a
Go string holds for it. -/
def utf8EncodeChar (c : Nat) : List Nat :=
  if c < 0x80 then [c]
  else if c < 0x800 then [0xC0 ||| (c >>> 6), 0x80 ||| (c &&& 0x3F)]
  else if c < 0x10000 then
    [0xE0 ||| (c >>> 12), 0x80 ||| ((c >>> 6) &&& 0x3F), 0x80 ||| (c &&& 0x3F)]
  else
    [0xF0 ||| (c >>> 18), 0x80 ||| ((c >>> 12) &&& 0x3F), 0x80 ||| ((c >>> 6) &&& 0x3F),
      0x80 ||| (c &&& 0x3F)]

/-- The bytes of the Go string that holds the text `s`, such as the value of
`secret_key` read from the configuration file: its UTF-8 encoding. The number
of characters of the text is `s.length`, the `len` of the Go string is the
length of `stringBytes s`. -/
def stringBytes (s : String) : List Nat :=
  s.data.flatMap (fun c => utf8EncodeChar c.toNat)

/-! ## The secret key check of `NewServer` (`server/serve.go`, lines 110-123) -/

/-- The fields of `config.Settings` that `NewServer` touches up to line 123:
`SecretKey` (the 32 bytes behind the pointer) and `Reporter` (which may be
nil); `others` stands for the remaining fields. The type is declared outside
`serve.go`. -/
structure Settings (ρ τ : Type) where
  SecretKey : List Nat
  Reporter : Option ρ
  others : τ

/-- The message of the error of line 122. -/
def invalidSecretKey : String := "Invalid secret key (must initialize some bytes)"

/-- NewServer up to line 123. `noopReporter` is `services.GetReporter("noop", "")`
and `construct` is the rest of the function, lines 124-238, which builds the
server from the settings or fails. -/
def NewServer {ρ τ S : Type} (noopReporter : ρ) (construct : Settings ρ τ → Except String S)
    (settings : Settings ρ τ) : Except String S :=
  let settings :=
    if settings.Reporter.isNone then { settings with Reporter := some noopReporter }
    else settings
  let validKey := settings.SecretKey.any (fun b => b != 0)
  if !validKey then .error invalidSecretKey
  else construct settings

/-! ## `services.Duration` (`services/services.go`, lines 20-25) -/

/-- The value an `int64` holds after an operation whose exact result is `x`. -/
def wrapInt64 (x : Int) : Int :=
  (x + 2 ^ 63) % 2 ^ 64 - 2 ^ 63

/-- The constant `time.Microsecond`, in nanoseconds. -/
def Microsecond : Int := 1000

/-- The value `d2` of line 23: `(d / (100 * time.Microsecond)) * (100 *
time.Microsecond)` in `int64` arithmetic, the division truncating. -/
def roundedDuration (d : Int) : Int :=
  wrapInt64 (wrapInt64 (d.tdiv (100 * Microsecond)) * (100 * Microsecond))

/-- Duration of `d` nanoseconds; `durationString` is the method
`time.Duration.String` of the Go standard library. -/
def Duration (durationString : Int → String) (d : Int) : String :=
  durationString (roundedDuration d)

/-! ## Example data -/

/-- The example policy of the specification, with the capability set reduced
to its one flag `view_media`. -/
def examplePolicy : Policy Bool :=
  [⟨some true, "admins", false, ["alice"]⟩, ⟨some false, "guests", true, []⟩]

/-- A policy whose default group comes before the group that lists `bob`. -/
def defaultFirstPolicy : Policy Bool :=
  [⟨some false, "guests", true, ["carol"]⟩, ⟨some true, "admins", false, ["alice", "bob"]⟩]

/-- Two groups named `A`, which validation refuses. -/
def twoGroupsNamedA : Policy Bool :=
  [⟨some true, "A", false, ["alice"]⟩, ⟨some false, "A", false, ["bob"]⟩]

/-- A group list in which `guests` comes without permissions. -/
def guestsWithoutPermissions : List (Group Bool) :=
  [⟨some false, "admins", false, ["alice"]⟩, ⟨none, "guests", true, []⟩]

/-- The 64 digits `0`: the configured key that decodes to 32 zero bytes. -/
def zeroHexKey : List Nat := List.replicate 64 48

/-- A configured key of 64 hexadecimal digits, the last two being `A` and `f`. -/
def sampleHexKey : List Nat := List.replicate 62 49 ++ [65, 102]

/-- A string of 64 bytes whose last byte, `g`, is no hexadecimal digit. -/
def nonHexKey : List Nat := List.replicate 63 48 ++ [103]

/-- Settings whose secret key is all zero. -/
def zeroKeySettings : Settings Unit Unit := ⟨List.replicate 32 0, none, ()⟩

/-- One group, which lists `bob` twice. -/
def bobTwiceInOneGroup : Policy Bool :=
  [⟨some true, "admins", false, ["alice", "bob", "bob"]⟩]

/-- The text of 63 characters made of `é` (code point 233, two bytes in UTF-8)
followed by 62 digits `0`: 64 bytes. -/
def eAcuteThenZeros : String := String.mk (Char.ofNat 233 :: List.replicate 62 (Char.ofNat 48))

/-- The text of 64 characters made of 63 digits `0` followed by `é`: 65 bytes. -/
def zerosThenEAcute : String := String.mk (List.replicate 63 (Char.ofNat 48) ++ [Char.ofNat 233])

/-! ## Lemmas on `Lookup` -/

section LookupLemmas

variable {σ υ : Type}

theorem any_eq_id_iff (users : List String) (id : String) :
    users.any (fun user => user == id) = true ↔ id ∈ users := by
  induction users with
  | nil => simp
  | cons u us ih =>
    simp only [List.any_cons, Bool.or_eq_true, ih, List.mem_cons, beq_iff_eq]
    constructor
    · rintro (h | h)
      · exact Or.inl h.symm
      · exact Or.inr h
    · rintro (h | h)
      · exact Or.inl h.symm
      · exact Or.inr h

theorem lookupLoop_first_member (NewUser : Option σ → υ) (id : String) (pre : List (Group σ))
    (g : Group σ) (post : List (Group σ)) (hpre : ∀ h ∈ pre, id ∉ h.Users) (hg : id ∈ g.Users)
    (dg : Option (Group σ)) :
    lookupLoop NewUser id (pre ++ g :: post) dg = ⟨some (NewUser g.Permissions), true, none⟩ := by
  induction pre generalizing dg with
  | nil =>
    have hany := (any_eq_id_iff g.Users id).2 hg
    simp [lookupLoop, hany]
  | cons h t ih =>
    have hnot : ¬ (h.Users.any (fun user => user == id) = true) := by
      rw [any_eq_id_iff]
      exact hpre h (List.mem_cons_self _ _)
    have ht : ∀ k ∈ t, id ∉ k.Users := fun k hk => hpre k (List.mem_cons_of_mem _ hk)
    simp only [List.cons_append, lookupLoop, hnot, if_false]
    exact ih ht _

theorem exists_first_member (id : String) (p : List (Group σ)) (h : ∃ g ∈ p, id ∈ g.Users) :
    ∃ pre g post, p = pre ++ g :: post ∧ (∀ k ∈ pre, id ∉ k.Users) ∧ id ∈ g.Users := by
  induction p with
  | nil =>
    obtain ⟨g, hg, _⟩ := h
    cases hg
  | cons a t ih =>
    by_cases ha : id ∈ a.Users
    · exact ⟨[], a, t, rfl, by simp, ha⟩
    · have ht : ∃ g ∈ t, id ∈ g.Users := by
        obtain ⟨g, hg, hid⟩ := h
        rcases List.mem_cons.1 hg with rfl | hg
        · exact absurd hid ha
        · exact ⟨g, hg, hid⟩
      obtain ⟨pre, g, post, hp, hpre, hg⟩ := ih ht
      refine ⟨a :: pre, g, post, by simp [hp], ?_, hg⟩
      intro k hk
      rcases List.mem_cons.1 hk with rfl | hk
      · exact ha
      · exact hpre k hk

/-- The default group the loop of `Lookup` holds after the groups `l`, when it
held `dg` before them: the last group of `l` marked default, else `dg`. -/
theorem lookupLoop_no_member (NewUser : Option σ → υ) (id : String) (l : List (Group σ))
    (hl : ∀ g ∈ l, id ∉ g.Users) (dg : Option (Group σ)) :
    lookupLoop NewUser id l dg =
      lookupLoop NewUser id []
        (l.foldl (fun d g => if g.Default == true then some g else d) dg) := by
  induction l generalizing dg with
  | nil => rfl
  | cons h t ih =>
    have hnot : ¬ (h.Users.any (fun user => user == id) = true) := by
      rw [any_eq_id_iff]
      exact hl h (List.mem_cons_self _ _)
    have ht : ∀ k ∈ t, id ∉ k.Users := fun k hk => hl k (List.mem_cons_of_mem _ hk)
    rw [lookupLoop, if_neg hnot, ih ht, List.foldl_cons]

theorem foldl_default_of_none (l : List (Group σ)) (hl : ∀ g ∈ l, g.Default = false)
    (dg : Option (Group σ)) :
    l.foldl (fun d g => if g.Default == true then some g else d) dg = dg := by
  induction l generalizing dg with
  | nil => rfl
  | cons h t ih =>
    have hh : h.Default = false := hl h (List.mem_cons_self _ _)
    have ht : ∀ k ∈ t, k.Default = false := fun k hk => hl k (List.mem_cons_of_mem _ hk)
    rw [List.foldl_cons, ih ht]
    simp [hh]

theorem foldl_default_of_unique (l : List (Group σ))
    (hone : (l.filter (fun g => g.Default)).length ≤ 1) (g : Group σ) (hg : g ∈ l)
    (hd : g.Default = true) (dg : Option (Group σ)) :
    l.foldl (fun d g => if g.Default == true then some g else d) dg = some g := by
  induction l generalizing dg with
  | nil => cases hg
  | cons h t ih =>
    rw [List.foldl_cons]
    by_cases hh : h.Default = true
    · have hfilter : (t.filter (fun g => g.Default)).length = 0 := by
        simp only [List.filter_cons, hh, if_true, List.length_cons] at hone
        omega
      have hnone : ∀ k ∈ t, k.Default = false := by
        intro k hk
        by_contra hkd
        have hkd2 : k.Default = true := by simpa using hkd
        have hmem : k ∈ t.filter (fun g => g.Default) := List.mem_filter.2 ⟨hk, hkd2⟩
        have hnil := List.length_eq_zero.1 hfilter
        rw [hnil] at hmem
        cases hmem
      rw [foldl_default_of_none t hnone]
      rcases List.mem_cons.1 hg with rfl | hgt
      · simp [hd]
      · have := hnone g hgt
        rw [hd] at this
        cases this
    · have hh2 : h.Default = false := by simpa using hh
      have hone2 : (t.filter (fun g => g.Default)).length ≤ 1 := by
        simpa [List.filter_cons, hh2] using hone
      rcases List.mem_cons.1 hg with rfl | hgt
      · exact absurd hd hh
      · exact ih hone2 hgt _

end LookupLemmas

/-! ## Lemmas on `validatePolicy` -/

section ValidateLemmas

variable {σ : Type}

theorem validateUsers_cons (users : List String) (u : String) (t : List String) :
    validateUsers users (u :: t) =
      if users.contains u then .error ("User " ++ u ++ " appears twice in the list")
      else validateUsers (u :: users) t := rfl

theorem validateLoop_cons (g : Group σ) (t : List (Group σ)) (users names : List String)
    (dc : Nat) :
    validateLoop (g :: t) users names dc =
      if g.Name == "" then some "Group has no name, define a group name"
      else if names.contains g.Name then
        some ("Group name " ++ g.Name ++ " appears twice in the list")
      else if g.Default == true && decide ((if g.Default == true then dc + 1 else dc) > 1) then
        some "More than one group marked as default"
      else
        match validateUsers users g.Users with
        | .error e => some e
        | .ok r => validateLoop t r (g.Name :: names)
            (if g.Default == true then dc + 1 else dc) := rfl

/-- What the loop over one group's members computes: it accepts exactly the
member lists without a repeated id and without an id already in `users`. -/
theorem validateUsers_ok_iff (users us r : List String) :
    validateUsers users us = .ok r ↔
      us.Nodup ∧ (∀ u ∈ us, u ∉ users) ∧ r = us.reverse ++ users := by
  induction us generalizing users with
  | nil =>
    constructor
    · intro h
      have hr : users = r := by
        have h2 : (Except.ok users : Except String (List String)) = .ok r := h
        injection h2
      refine ⟨List.nodup_nil, ?_, ?_⟩
      · intro u hu
        cases hu
      · simp [hr]
    · rintro ⟨_, _, hr⟩
      have hr2 : r = users := by simpa using hr
      rw [hr2]
      rfl
  | cons u t ih =>
    rw [validateUsers_cons]
    by_cases hu : u ∈ users
    · have hc : users.contains u = true := by simpa using hu
      rw [if_pos hc]
      constructor
      · intro h
        cases h
      · rintro ⟨_, h, _⟩
        exact absurd hu (h u (List.mem_cons_self _ _))
    · have hc : ¬ (users.contains u = true) := by simpa using hu
      rw [if_neg hc, ih]
      constructor
      · rintro ⟨hnd, hdis, hr⟩
        refine ⟨List.nodup_cons.2 ⟨fun hmem => hdis u hmem (List.mem_cons_self _ _), hnd⟩, ?_, ?_⟩
        · intro x hx
          rcases List.mem_cons.1 hx with rfl | hx
          · exact hu
          · exact fun hxu => hdis x hx (List.mem_cons_of_mem _ hxu)
        · simp [hr]
      · rintro ⟨hnd, hdis, hr⟩
        obtain ⟨hnot, hnd⟩ := List.nodup_cons.1 hnd
        refine ⟨hnd, ?_, by simp [hr]⟩
        intro x hx hxu
        rcases List.mem_cons.1 hxu with rfl | hxu
        · exact hnot hx
        · exact hdis x (List.mem_cons_of_mem _ hx) hxu

/-- What the loop over the groups computes, from any state of its variables
with `defaultCount` at most 1: it returns nil exactly when the remaining groups
have non-empty, pairwise distinct names not yet in `names`, ids that occur only
once among them and are not yet in `users`, and no more default groups than
`defaultCount` leaves room for. -/
theorem validateLoop_eq_none_iff (l : List (Group σ)) (users names : List String) (dc : Nat)
    (hdc : dc ≤ 1) :
    validateLoop l users names dc = none ↔
      (∀ g ∈ l, g.Name ≠ "") ∧ (l.map (fun g => g.Name)).Nodup ∧ (∀ g ∈ l, g.Name ∉ names) ∧
        (l.flatMap (fun g => g.Users)).Nodup ∧ (∀ u ∈ l.flatMap (fun g => g.Users), u ∉ users) ∧
        dc + l.countP (fun g => g.Default) ≤ 1 := by
  induction l generalizing users names dc with
  | nil => simp [validateLoop, hdc]
  | cons g t ih =>
    rw [validateLoop_cons]
    by_cases hname : g.Name = ""
    · have h1 : (g.Name == "") = true := by simpa using hname
      rw [if_pos h1]
      constructor
      · intro h
        cases h
      · rintro ⟨h, _⟩
        exact absurd hname (h g (List.mem_cons_self _ _))
    have h1 : ¬ ((g.Name == "") = true) := by simpa using hname
    rw [if_neg h1]
    by_cases hdup : g.Name ∈ names
    · have hc : names.contains g.Name = true := by simpa using hdup
      rw [if_pos hc]
      constructor
      · intro h
        cases h
      · rintro ⟨_, _, h, _⟩
        exact absurd hdup (h g (List.mem_cons_self _ _))
    have hc : ¬ (names.contains g.Name = true) := by simpa using hdup
    rw [if_neg hc]
    have hcount : (if (g.Default == true) = true then dc + 1 else dc) +
        t.countP (fun g => g.Default) = dc + (g :: t).countP (fun g => g.Default) := by
      by_cases hd : g.Default = true
      · simp only [beq_iff_eq, hd, if_true, List.countP_cons]
        omega
      · simp only [beq_iff_eq, hd, if_false, List.countP_cons]
        simp
    by_cases hmany : g.Default = true ∧ dc = 1
    · obtain ⟨hd, hone⟩ := hmany
      have hguard : (g.Default == true &&
          decide ((if (g.Default == true) = true then dc + 1 else dc) > 1)) = true := by
        simp [hd, hone]
      rw [if_pos hguard]
      constructor
      · intro h
        cases h
      · rintro ⟨_, _, _, _, _, h⟩
        rw [← hcount] at h
        simp only [beq_iff_eq, hd, if_true, hone] at h
        omega
    have hguard : ¬ ((g.Default == true &&
        decide ((if (g.Default == true) = true then dc + 1 else dc) > 1)) = true) := by
      intro h
      simp only [Bool.and_eq_true, beq_iff_eq, decide_eq_true_eq] at h
      obtain ⟨hd, hgt⟩ := h
      rw [if_pos hd] at hgt
      exact hmany ⟨hd, by omega⟩
    rw [if_neg hguard]
    have hdc2 : (if (g.Default == true) = true then dc + 1 else dc) ≤ 1 := by
      by_cases hd : g.Default = true
      · have : dc ≠ 1 := fun h => hmany ⟨hd, h⟩
        simp only [beq_iff_eq, hd, if_true]
        omega
      · simp only [beq_iff_eq, hd, if_false]
        exact hdc
    cases hv : validateUsers users g.Users with
    | error e =>
      have hno : ¬ (g.Users.Nodup ∧ ∀ u ∈ g.Users, u ∉ users) := by
        rintro ⟨hnd, hdis⟩
        have := (validateUsers_ok_iff users g.Users _).2 ⟨hnd, hdis, rfl⟩
        rw [hv] at this
        cases this
      constructor
      · intro h
        cases h
      · rintro ⟨_, _, _, hnd, hdis, _⟩
        rw [List.flatMap_cons, List.nodup_append] at hnd
        exact absurd ⟨hnd.1, fun u hu => hdis u (by
          rw [List.flatMap_cons]
          exact List.mem_append_left _ hu)⟩ hno
    | ok r =>
      obtain ⟨hnd, hdis, hr⟩ := (validateUsers_ok_iff users g.Users r).1 hv
      show validateLoop t r (g.Name :: names) _ = none ↔ _
      rw [ih r (g.Name :: names) _ hdc2, hcount]
      simp only [List.mem_cons, List.map_cons, List.nodup_cons, List.flatMap_cons,
        List.nodup_append, List.mem_append, List.mem_map, hr, List.mem_reverse]
      constructor
      · rintro ⟨h1, h2, h3, h4, h5, h6⟩
        refine ⟨?_, ⟨?_, h2⟩, ?_, ⟨hnd, h4, ?_⟩, ?_, h6⟩
        · rintro x (rfl | hx)
          · exact hname
          · exact h1 x hx
        · rintro ⟨x, hx, hxe⟩
          exact h3 x hx (Or.inl hxe)
        · rintro x (rfl | hx)
          · exact hdup
          · exact fun hxn => h3 x hx (Or.inr hxn)
        · intro a ha hb
          exact h5 a hb (Or.inl ha)
        · rintro u (hu | hu)
          · exact hdis u hu
          · exact fun huu => h5 u hu (Or.inr huu)
      · rintro ⟨h1, ⟨h2a, h2⟩, h3, ⟨_, h4, h4d⟩, h5, h6⟩
        refine ⟨fun x hx => h1 x (Or.inr hx), h2, ?_, h4, ?_, h6⟩
        · rintro x hx (hxe | hxn)
          · exact h2a ⟨x, hx, hxe⟩
          · exact h3 x (Or.inr hx) hxn
        · rintro u hu (hug | huu)
          · exact h4d hug hu
          · exact h5 u (Or.inr hu) huu

/-- The policies `validatePolicy` accepts. -/
theorem validatePolicy_some_eq_none_iff (p : Policy σ) :
    validatePolicy (some p) = none ↔
      (∀ g ∈ p, g.Name ≠ "") ∧ (p.map (fun g => g.Name)).Nodup ∧
        (p.flatMap (fun g => g.Users)).Nodup ∧ p.countP (fun g => g.Default) ≤ 1 := by
  show validateLoop p [] [] 0 = none ↔ _
  rw [validateLoop_eq_none_iff p [] [] 0 (by omega)]
  simp

end ValidateLemmas

/-! ## Properties of `Lookup` -/

/-- C1. For a policy that is not nil and an id listed in some group, `Lookup`
returns no error, found = true and the user built by `NewUser` from the
permissions of the first group, in declared order, that lists the id. In
particular, when exactly one group lists the id, the user is built from that
group's permissions, wherever the default groups are. -/
theorem Lookup_member {σ υ : Type} (NewUser : Option σ → υ) (p : Policy σ) (id : String)
    (h : ∃ g ∈ p, id ∈ g.Users) :
    (∃ pre g post, p = pre ++ g :: post ∧ (∀ k ∈ pre, id ∉ k.Users) ∧ id ∈ g.Users ∧
        Policy.Lookup NewUser (some p) id = ⟨some (NewUser g.Permissions), true, none⟩) ∧
      (∀ pre g post, p = pre ++ g :: post → id ∈ g.Users →
        (∀ k ∈ pre ++ post, id ∉ k.Users) →
        Policy.Lookup NewUser (some p) id = ⟨some (NewUser g.Permissions), true, none⟩) := by
  constructor
  · obtain ⟨pre, g, post, hp, hpre, hg⟩ := exists_first_member id p h
    refine ⟨pre, g, post, hp, hpre, hg, ?_⟩
    subst hp
    exact lookupLoop_first_member NewUser id pre g post hpre hg none
  · intro pre g post hp hg hothers
    subst hp
    exact lookupLoop_first_member NewUser id pre g post
      (fun k hk => hothers k (List.mem_append_left _ hk)) hg none

/-- C1 at the policy whose default group `guests` precedes `admins`: `bob`, a
member of `admins` only, gets the user built from the permissions of `admins`. -/
theorem Lookup_member_witness :
    (∃ g ∈ defaultFirstPolicy, "bob" ∈ g.Users) ∧
      Policy.Lookup (fun s : Option Bool => s) (some defaultFirstPolicy) "bob" =
        ⟨some (some true), true, none⟩ :=
  have hmem : ∃ g ∈ defaultFirstPolicy, "bob" ∈ g.Users :=
    ⟨⟨some true, "admins", false, ["alice", "bob"]⟩, by simp [defaultFirstPolicy], by simp⟩
  ⟨hmem,
    (Lookup_member (fun s : Option Bool => s) defaultFirstPolicy "bob" hmem).2
      [⟨some false, "guests", true, ["carol"]⟩] ⟨some true, "admins", false, ["alice", "bob"]⟩ []
      rfl (by simp) (by simp)⟩

/-- C2. For a policy that is not nil, with at most one group marked default,
and an id that no group lists: when a group is marked default, `Lookup`
returns the user built from that group's permissions, found = false and no
error; when no group is marked default, it returns no user, found = false and
an error. -/
theorem Lookup_nonmember {σ υ : Type} (NewUser : Option σ → υ) (p : Policy σ) (id : String)
    (hone : (p.filter (fun g => g.Default)).length ≤ 1) (hid : ∀ g ∈ p, id ∉ g.Users) :
    (∀ g ∈ p, g.Default = true →
        Policy.Lookup NewUser (some p) id = ⟨some (NewUser g.Permissions), false, none⟩) ∧
      ((∀ g ∈ p, g.Default = false) →
        Policy.Lookup NewUser (some p) id = ⟨none, false, some (lookupNotFound id)⟩) := by
  constructor
  · intro g hg hd
    show lookupLoop NewUser id p none = _
    rw [lookupLoop_no_member NewUser id p hid, foldl_default_of_unique p hone g hg hd]
    rfl
  · intro hnone
    show lookupLoop NewUser id p none = _
    rw [lookupLoop_no_member NewUser id p hid, foldl_default_of_none p hnone]
    rfl

/-- C2 at the example policy of the specification: `carol` is in no group and
gets the user of the default group `guests`, found = false. -/
theorem Lookup_nonmember_witness :
    (examplePolicy.filter (fun g => g.Default)).length ≤ 1 ∧
      (∀ g ∈ examplePolicy, "carol" ∉ g.Users) ∧
      Policy.Lookup (fun s : Option Bool => s) (some examplePolicy) "carol" =
        ⟨some (some false), false, none⟩ :=
  have hone : (examplePolicy.filter (fun g => g.Default)).length ≤ 1 := by
    simp [examplePolicy]
  have hid : ∀ g ∈ examplePolicy, "carol" ∉ g.Users := by
    simp [examplePolicy]
  ⟨hone, hid,
    (Lookup_nonmember (fun s : Option Bool => s) examplePolicy "carol" hone hid).1
      ⟨some false, "guests", true, []⟩ (by simp [examplePolicy]) rfl⟩

/-! ## Properties of `validatePolicy` -/

/-- C3. `validatePolicy` returns an error for every policy in which some group
has an empty name, or two groups (at positions `i < j`) share a name, or some
id is a member of two groups (at positions `i < j`), or more than one group is
marked default. -/
theorem validatePolicy_rejects {σ : Type} (p : Policy σ)
    (h : (∃ g ∈ p, g.Name = "") ∨
      (∃ i j, ∃ (hi : i < p.length) (hj : j < p.length), i < j ∧ p[i].Name = p[j].Name) ∨
      (∃ i j, ∃ (hi : i < p.length) (hj : j < p.length),
        i < j ∧ ∃ u, u ∈ p[i].Users ∧ u ∈ p[j].Users) ∨
      1 < p.countP (fun g => g.Default)) :
    ∃ e, validatePolicy (some p) = some e := by
  cases hv : validatePolicy (some p) with
  | some e => exact ⟨e, rfl⟩
  | none =>
    exfalso
    obtain ⟨hname, hnames, hids, hdef⟩ := (validatePolicy_some_eq_none_iff p).1 hv
    rcases h with ⟨g, hg, he⟩ | ⟨i, j, hi, hj, hij, he⟩ | ⟨i, j, hi, hj, hij, u, hui, huj⟩ | hmany
    · exact hname g hg he
    · have hpw : p.Pairwise (fun a b => a.Name ≠ b.Name) := List.pairwise_map.1 hnames
      exact List.pairwise_iff_getElem.1 hpw i j hi hj hij he
    · have hpw := (List.nodup_flatMap.1 hids).2
      exact List.pairwise_iff_getElem.1 hpw i j hi hj hij hui huj
    · omega

/-- C3 at two groups that are both named `A`. -/
theorem validatePolicy_rejects_witness :
    (∃ i j, ∃ (hi : i < twoGroupsNamedA.length) (hj : j < twoGroupsNamedA.length),
        i < j ∧ twoGroupsNamedA[i].Name = twoGroupsNamedA[j].Name) ∧
      ∃ e, validatePolicy (some twoGroupsNamedA) = some e :=
  have hshare : ∃ i j, ∃ (hi : i < twoGroupsNamedA.length) (hj : j < twoGroupsNamedA.length),
      i < j ∧ twoGroupsNamedA[i].Name = twoGroupsNamedA[j].Name :=
    ⟨0, 1, by decide, by decide, by decide, rfl⟩
  ⟨hshare, validatePolicy_rejects twoGroupsNamedA (Or.inr (Or.inl hshare))⟩

/-- C4. `validatePolicy` returns nil for every policy whose group names are
non-empty and pairwise distinct, in which no id occurs twice anywhere, and
in which at most one group is marked default; it returns nil for the nil
policy and for the policy without groups. -/
theorem validatePolicy_accepts {σ : Type} (p : Policy σ)
    (hname : ∀ g ∈ p, g.Name ≠ "")
    (hdistinct : p.Pairwise (fun a b => a.Name ≠ b.Name))
    (hids : (p.flatMap (fun g => g.Users)).Nodup)
    (hdef : p.countP (fun g => g.Default) ≤ 1) :
    validatePolicy (some p) = none ∧
      validatePolicy (none : Option (Policy σ)) = none ∧
      validatePolicy (some ([] : Policy σ)) = none :=
  ⟨(validatePolicy_some_eq_none_iff p).2 ⟨hname, List.pairwise_map.2 hdistinct, hids, hdef⟩,
    rfl, rfl⟩

/-- C4 at the example policy of the specification. -/
theorem validatePolicy_accepts_witness :
    (∀ g ∈ examplePolicy, g.Name ≠ "") ∧
      examplePolicy.Pairwise (fun a b => a.Name ≠ b.Name) ∧
      (examplePolicy.flatMap (fun g => g.Users)).Nodup ∧
      examplePolicy.countP (fun g => g.Default) ≤ 1 ∧
      validatePolicy (some examplePolicy) = none :=
  have hname : ∀ g ∈ examplePolicy, g.Name ≠ "" := by
    simp [examplePolicy]
  have hdistinct : examplePolicy.Pairwise (fun a b => a.Name ≠ b.Name) := by
    simp [examplePolicy]
  have hids : (examplePolicy.flatMap (fun g => g.Users)).Nodup := by
    simp [examplePolicy]
  have hdef : examplePolicy.countP (fun g => g.Default) ≤ 1 := by
    simp [examplePolicy]
  ⟨hname, hdistinct, hids, hdef,
    (validatePolicy_accepts examplePolicy hname hdistinct hids hdef).1⟩

/-! ## Properties of `Policy.UnmarshalYAML` -/

theorem fillPermissions_ne_none {σ : Type} (AllUserSettings : σ) (yp : List (Group σ)) :
    ∀ g ∈ fillPermissions AllUserSettings yp, g.Permissions ≠ none := by
  intro g hg
  obtain ⟨a, _, rfl⟩ := List.mem_map.1 hg
  cases hp : a.Permissions with
  | none => simp [hp]
  | some v => simp [hp]

theorem fillPermissions_getElem {σ : Type} (AllUserSettings : σ) (yp : List (Group σ)) (i : Nat)
    (h1 : i < yp.length) (h2 : i < (fillPermissions AllUserSettings yp).length) :
    (yp[i].Permissions = none →
        (fillPermissions AllUserSettings yp)[i].Permissions = some AllUserSettings) ∧
      (yp[i].Permissions ≠ none → (fillPermissions AllUserSettings yp)[i] = yp[i]) := by
  simp only [fillPermissions, List.getElem_map]
  constructor
  · intro h
    simp [h]
  · intro h
    cases hp : yp[i].Permissions with
    | none => exact absurd hp h
    | some v => simp [hp]

theorem UnmarshalYAML_sequence {σ : Type} (AllUserSettings : σ) (p : Option (Policy σ))
    (groups : List (Group σ)) :
    Policy.UnmarshalYAML AllUserSettings p (yamlUnmarshalSequence groups) =
      .ok (fillPermissions AllUserSettings groups) := rfl

theorem UnmarshalYAML_wrapped {σ : Type} (AllUserSettings : σ) (p : Option (Policy σ))
    (groups : List (Group σ)) :
    Policy.UnmarshalYAML AllUserSettings p (yamlUnmarshal AllUserSettings (.wrapped groups)) =
      if (fillPermissions AllUserSettings groups).length > 0 then
        .ok (fillPermissions AllUserSettings groups)
      else .error yamlTypeError := rfl

theorem UnmarshalYAML_document {σ : Type} (AllUserSettings : σ) (p : Option (Policy σ))
    (doc : PolicyDocument σ) (pol : Policy σ)
    (h : Policy.UnmarshalYAML AllUserSettings p (yamlUnmarshal AllUserSettings doc) = .ok pol) :
    pol = fillPermissions AllUserSettings doc.groups := by
  cases doc with
  | bare groups =>
    have h2 : (Except.ok (fillPermissions AllUserSettings groups) : Except String (Policy σ)) =
        .ok pol := h
    injection h2 with h3
    exact h3.symm
  | wrapped groups =>
    rw [UnmarshalYAML_wrapped] at h
    split at h
    · injection h with h3
      exact h3.symm
    · cases h

/-- C5. For a policy document in either accepted shape, the bare list of
groups or that list under the key `policy`, decoded by the YAML decoder: when
`UnmarshalYAML` succeeds, the policy has the document's groups in order, no
group of it has nil `Permissions`, every group that the document gives no
permissions has `Permissions` equal to `AllUserSettings()`, and every other
group is as written. -/
theorem UnmarshalYAML_permissions {σ : Type} (AllUserSettings : σ) (p : Option (Policy σ))
    (doc : PolicyDocument σ) (pol : Policy σ)
    (h : Policy.UnmarshalYAML AllUserSettings p (yamlUnmarshal AllUserSettings doc) = .ok pol) :
    (∀ g ∈ pol, g.Permissions ≠ none) ∧ pol.length = doc.groups.length ∧
      ∀ i, ∀ (h1 : i < doc.groups.length) (h2 : i < pol.length),
        (doc.groups[i].Permissions = none → pol[i].Permissions = some AllUserSettings) ∧
          (doc.groups[i].Permissions ≠ none → pol[i] = doc.groups[i]) := by
  have hpol := UnmarshalYAML_document AllUserSettings p doc pol h
  subst hpol
  refine ⟨fillPermissions_ne_none AllUserSettings doc.groups, by simp [fillPermissions], ?_⟩
  intro i h1 h2
  exact fillPermissions_getElem AllUserSettings doc.groups i h1 h2

/-- C5 at the document that nests two groups under `policy`, the second
without permissions: parsing succeeds and `guests` holds `AllUserSettings()`
(here the flag `true`). -/
theorem UnmarshalYAML_permissions_witness :
    Policy.UnmarshalYAML true none (yamlUnmarshal true (.wrapped guestsWithoutPermissions)) =
        .ok [⟨some false, "admins", false, ["alice"]⟩, ⟨some true, "guests", true, []⟩] ∧
      ∀ g ∈ ([⟨some false, "admins", false, ["alice"]⟩, ⟨some true, "guests", true, []⟩] :
        Policy Bool), g.Permissions ≠ none :=
  have h : Policy.UnmarshalYAML true none (yamlUnmarshal true (.wrapped guestsWithoutPermissions)) =
      .ok [⟨some false, "admins", false, ["alice"]⟩, ⟨some true, "guests", true, []⟩] := rfl
  ⟨h, (UnmarshalYAML_permissions true none (.wrapped guestsWithoutPermissions) _ h).1⟩

/-! ## Lemmas on `getSecretKey` -/

theorem fromHexChar_of_digit (c : Nat) (h : IsHexDigit c) :
    fromHexChar c = some (hexDigitValue c) ∧ hexDigitValue c < 16 ∧
      hextable.getD (hexDigitValue c) 0 = asciiLower c := by
  have hall : ∀ c < 103, IsHexDigit c →
      fromHexChar c = some (hexDigitValue c) ∧ hexDigitValue c < 16 ∧
        hextable.getD (hexDigitValue c) 0 = asciiLower c := by decide
  have hc : c < 103 := by
    unfold IsHexDigit at h
    omega
  exact hall c hc h

theorem fromHexChar_of_not_digit (c : Nat) (h : ¬ IsHexDigit c) : fromHexChar c = none := by
  unfold IsHexDigit at h
  unfold fromHexChar
  split_ifs with h1 h2 h3
  · exact absurd (Or.inl h1) h
  · exact absurd (Or.inr (Or.inl h2)) h
  · exact absurd (Or.inr (Or.inr h3)) h
  · rfl

theorem hex_pair (a b : Nat) (ha : a < 16) (hb : b < 16) :
    ((a <<< 4) ||| b) = 16 * a + b ∧ ((a <<< 4) ||| b) >>> 4 = a ∧
      ((a <<< 4) ||| b) &&& 0x0f = b := by
  have hall : ∀ a < 16, ∀ b < 16, ((a <<< 4) ||| b) = 16 * a + b ∧
      ((a <<< 4) ||| b) >>> 4 = a ∧ ((a <<< 4) ||| b) &&& 0x0f = b := by decide
  exact hall a ha b hb

theorem DecodeString_cons_cons (p q : Nat) (rest : List Nat) :
    DecodeString (p :: q :: rest) =
      match fromHexChar p with
      | none => .error (.InvalidByteError p)
      | some a =>
        match fromHexChar q with
        | none => .error (.InvalidByteError q)
        | some b =>
          match DecodeString rest with
          | .error err => .error err
          | .ok dst => .ok (((a <<< 4) ||| b) :: dst) := by
  rw [DecodeString]

/-- DecodeString on an even number of hexadecimal digits. -/
theorem DecodeString_digits (n : Nat) (s : List Nat) (hlen : s.length = 2 * n)
    (hhex : ∀ c ∈ s, IsHexDigit c) :
    ∃ bytes, DecodeString s = .ok bytes ∧ bytes.length = n ∧
      (∀ i < n, bytes.getD i 0 =
        16 * hexDigitValue (s.getD (2 * i) 0) + hexDigitValue (s.getD (2 * i + 1) 0)) ∧
      EncodeToString bytes = s.map asciiLower := by
  induction n generalizing s with
  | zero =>
    have hs : s = [] := List.length_eq_zero.1 (by simpa using hlen)
    subst hs
    exact ⟨[], rfl, rfl, fun i hi => absurd hi (Nat.not_lt_zero i), rfl⟩
  | succ n ih =>
    match s, hlen, hhex with
    | p :: q :: rest, hlen, hhex =>
      have hrest : rest.length = 2 * n := by
        simp only [List.length_cons] at hlen
        omega
      have hp := fromHexChar_of_digit p (hhex p (by simp))
      have hq := fromHexChar_of_digit q (hhex q (by simp))
      obtain ⟨bytes, hdec, hblen, hbytes, henc⟩ :=
        ih rest hrest (fun c hc => hhex c (by simp [hc]))
      obtain ⟨hpair, hhi, hlo⟩ := hex_pair _ _ hp.2.1 hq.2.1
      refine ⟨((hexDigitValue p <<< 4) ||| hexDigitValue q) :: bytes, ?_, by simp [hblen], ?_, ?_⟩
      · rw [DecodeString_cons_cons, hp.1, hq.1, hdec]
      · intro i hi
        cases i with
        | zero => simpa using hpair
        | succ j =>
          have hj : j < n := by omega
          have h2 : 2 * (j + 1) = 2 * j + 1 + 1 := by omega
          rw [h2]
          simp only [List.getD_cons_succ]
          exact hbytes j hj
      · show [hextable.getD (((hexDigitValue p <<< 4) ||| hexDigitValue q) >>> 4) 0,
            hextable.getD (((hexDigitValue p <<< 4) ||| hexDigitValue q) &&& 0x0f) 0] ++
            EncodeToString bytes = _
        rw [hhi, hlo, hp.2.2, hq.2.2, henc]
        rfl
    | [_], hlen, _ =>
      simp only [List.length_cons, List.length_nil] at hlen
      omega
    | [], hlen, _ =>
      simp only [List.length_nil] at hlen
      omega

/-- DecodeString on an even number of bytes, one of which is no hexadecimal
digit: the error names a byte of the input that is no digit. -/
theorem DecodeString_not_digits (n : Nat) (s : List Nat) (hlen : s.length = 2 * n)
    (hbad : ∃ c ∈ s, ¬ IsHexDigit c) :
    ∃ b ∈ s, ¬ IsHexDigit b ∧ DecodeString s = .error (.InvalidByteError b) := by
  induction n generalizing s with
  | zero =>
    have hs : s = [] := List.length_eq_zero.1 (by simpa using hlen)
    subst hs
    obtain ⟨c, hc, _⟩ := hbad
    cases hc
  | succ n ih =>
    match s, hlen, hbad with
    | p :: q :: rest, hlen, hbad =>
      have hrest : rest.length = 2 * n := by
        simp only [List.length_cons] at hlen
        omega
      by_cases hp : IsHexDigit p
      · by_cases hq : IsHexDigit q
        · have hbad2 : ∃ c ∈ rest, ¬ IsHexDigit c := by
            obtain ⟨c, hc, hcbad⟩ := hbad
            rcases List.mem_cons.1 hc with rfl | hc
            · exact absurd hp hcbad
            · rcases List.mem_cons.1 hc with rfl | hc
              · exact absurd hq hcbad
              · exact ⟨c, hc, hcbad⟩
          obtain ⟨b, hb, hbbad, hdec⟩ := ih rest hrest hbad2
          refine ⟨b, by simp [hb], hbbad, ?_⟩
          rw [DecodeString_cons_cons, (fromHexChar_of_digit p hp).1,
            (fromHexChar_of_digit q hq).1, hdec]
        · refine ⟨q, by simp, hq, ?_⟩
          rw [DecodeString_cons_cons, (fromHexChar_of_digit p hp).1,
            fromHexChar_of_not_digit q hq]
      · refine ⟨p, by simp, hp, ?_⟩
        rw [DecodeString_cons_cons, fromHexChar_of_not_digit p hp]
    | [_], hlen, _ =>
      simp only [List.length_cons, List.length_nil] at hlen
      omega
    | [], hlen, _ =>
      simp only [List.length_nil] at hlen
      omega

theorem copyToKey_of_length (b : List Nat) (h : b.length = 32) : copyToKey b = b := by
  unfold copyToKey
  have ht : b.take 32 = b := List.take_of_length_le (by omega)
  rw [ht, h]
  simp

/-! ## Properties of `getSecretKey` and of the key check of `NewServer` -/

/-- C6. For every string `hexKey` of exactly 64 hexadecimal digits,
`getSecretKey` returns no error and a key of 32 bytes whose byte `i` is the
value of the digits `2i` and `2i+1` of `hexKey`; the key depends on `hexKey`
alone (not on the random key of the call), and its hexadecimal encoding is
`hexKey` in lower case. -/
theorem getSecretKey_hex (NewRandomKey hexKey : List Nat) (hlen : hexKey.length = 64)
    (hhex : ∀ c ∈ hexKey, IsHexDigit c) :
    ∃ key, getSecretKey NewRandomKey hexKey = .ok key ∧ key.length = 32 ∧
      (∀ i < 32, key.getD i 0 =
        16 * hexDigitValue (hexKey.getD (2 * i) 0) + hexDigitValue (hexKey.getD (2 * i + 1) 0)) ∧
      (∀ otherRandomKey, getSecretKey otherRandomKey hexKey = .ok key) ∧
      EncodeToString key = hexKey.map asciiLower := by
  obtain ⟨bytes, hdec, hblen, hbytes, henc⟩ := DecodeString_digits 32 hexKey hlen hhex
  have hne : hexKey ≠ [] := by
    intro h
    rw [h] at hlen
    cases hlen
  have hget : ∀ r, getSecretKey r hexKey = .ok bytes := by
    intro r
    unfold getSecretKey
    rw [if_neg hne, if_neg (by simp [hlen]), hdec]
    simp only [copyToKey_of_length bytes hblen]
  exact ⟨bytes, hget NewRandomKey, hblen, hbytes, hget, henc⟩

/-- C6 at a key of 62 digits `1` followed by `Af`: the secret key is 31 bytes
`0x11` followed by `0xaf`, whatever the random key. -/
theorem getSecretKey_hex_witness :
    sampleHexKey.length = 64 ∧ (∀ c ∈ sampleHexKey, IsHexDigit c) ∧
      getSecretKey [] sampleHexKey = .ok (List.replicate 31 17 ++ [175]) ∧
      ∃ key, getSecretKey [] sampleHexKey = .ok key ∧ key.length = 32 ∧
        EncodeToString key = sampleHexKey.map asciiLower :=
  have hlen : sampleHexKey.length = 64 := by decide
  have hhex : ∀ c ∈ sampleHexKey, IsHexDigit c := by decide
  ⟨hlen, hhex, rfl,
    (getSecretKey_hex [] sampleHexKey hlen hhex).imp
      (fun _ h => ⟨h.1, h.2.1, h.2.2.2.2⟩)⟩

/-- C7, with length and characters counted in bytes as `len(hexKey)` counts
them. `getSecretKey` returns an error, hence no key, for every non-empty
string that is not 64 hexadecimal digits: `errWrongLength` when the length in
bytes is not 64; when the length is 64 bytes and some byte is no hexadecimal
digit, the error of the hexadecimal decoder naming such a byte, which is not
`errWrongLength`. -/
theorem getSecretKey_invalid (NewRandomKey hexKey : List Nat) :
    (hexKey ≠ [] → hexKey.length ≠ 64 →
        getSecretKey NewRandomKey hexKey = .error .errWrongLength) ∧
      (hexKey.length = 64 → (∃ c ∈ hexKey, ¬ IsHexDigit c) →
        ∃ b ∈ hexKey, ¬ IsHexDigit b ∧
          getSecretKey NewRandomKey hexKey = .error (.InvalidByteError b) ∧
          KeyError.InvalidByteError b ≠ KeyError.errWrongLength) := by
  constructor
  · intro hne hlen
    unfold getSecretKey
    rw [if_neg hne, if_pos hlen]
  · intro hlen hbad
    obtain ⟨b, hb, hbbad, hdec⟩ := DecodeString_not_digits 32 hexKey hlen hbad
    have hne : hexKey ≠ [] := by
      intro h
      rw [h] at hlen
      cases hlen
    refine ⟨b, hb, hbbad, ?_, fun h => by cases h⟩
    unfold getSecretKey
    rw [if_neg hne, if_neg (by simp [hlen]), hdec]

/-- C7 at 63 digits `0` (the length error) and at 63 digits `0` followed by
`g` (the decoder's error for the byte `g`). -/
theorem getSecretKey_invalid_witness :
    getSecretKey [] (List.replicate 63 48) = .error .errWrongLength ∧
      ∃ b ∈ nonHexKey, ¬ IsHexDigit b ∧
        getSecretKey [] nonHexKey = .error (.InvalidByteError b) ∧
        KeyError.InvalidByteError b ≠ KeyError.errWrongLength :=
  ⟨(getSecretKey_invalid [] (List.replicate 63 48)).1 (by decide) (by decide),
    (getSecretKey_invalid [] nonHexKey).2 (by decide) ⟨103, by decide, by decide⟩⟩

/-- C8. For all settings whose 32-byte secret key is all zero, `NewServer`
returns the error `Invalid secret key` and no server, whatever the other
settings and the rest of the construction; the key `getSecretKey` returns for
64 digits `0` is that key; and with every key that has a non-zero byte the
check is passed: `NewServer` goes on to the rest of the construction. -/
theorem NewServer_secret_key {ρ τ S : Type} (noopReporter : ρ)
    (construct : Settings ρ τ → Except String S) (settings : Settings ρ τ) :
    (settings.SecretKey = List.replicate 32 0 →
        NewServer noopReporter construct settings = .error invalidSecretKey) ∧
      (∀ NewRandomKey, getSecretKey NewRandomKey zeroHexKey = .ok (List.replicate 32 0)) ∧
      ((∃ b ∈ settings.SecretKey, b ≠ 0) →
        NewServer noopReporter construct settings =
          construct (if settings.Reporter.isNone then
            { settings with Reporter := some noopReporter } else settings)) := by
  have hkey : (if settings.Reporter.isNone then
      { settings with Reporter := some noopReporter } else settings).SecretKey =
        settings.SecretKey := by
    split <;> rfl
  refine ⟨?_, fun _ => rfl, ?_⟩
  · intro hzero
    have hany : settings.SecretKey.any (fun b => b != 0) = false := by
      rw [hzero]
      decide
    simp only [NewServer, hkey, hany]
    rfl
  · rintro ⟨b, hb, hne⟩
    have hany : settings.SecretKey.any (fun b => b != 0) = true :=
      List.any_eq_true.2 ⟨b, hb, by simpa using hne⟩
    simp only [NewServer, hkey, hany]
    rfl

/-- C8 at settings with the all-zero key: `NewServer` fails although the rest
of the construction would succeed. -/
theorem NewServer_secret_key_witness :
    zeroKeySettings.SecretKey = List.replicate 32 0 ∧
      NewServer () (fun _ => (.ok () : Except String Unit)) zeroKeySettings =
        .error invalidSecretKey :=
  ⟨rfl, (NewServer_secret_key () (fun _ => (.ok () : Except String Unit)) zeroKeySettings).1 rfl⟩

/-! ## Lemmas on `Policy.Users` -/

section UsersLemmas

variable {σ υ : Type}

theorem mapGet_filter_ne (m : List (String × υ)) (k id : String) (h : id ≠ k) :
    mapGet (m.filter (fun e => e.1 != k)) id = mapGet m id := by
  induction m with
  | nil => rfl
  | cons e t ih =>
    obtain ⟨a, b⟩ := e
    unfold mapGet at ih ⊢
    by_cases hak : a = k
    · subst hak
      have hid : (id == a) = false := by simpa using h
      simp only [List.filter_cons, bne_self_eq_false, Bool.false_eq_true, if_false,
        List.lookup_cons, hid]
      exact ih
    · have hne : (a != k) = true := by simpa using hak
      simp only [List.filter_cons, hne, if_true, List.lookup_cons]
      cases hia : id == a with
      | true => rfl
      | false => exact ih

theorem mapGet_mapSet (m : List (String × υ)) (k : String) (v : υ) (id : String) :
    mapGet (mapSet m k v) id = if id = k then some v else mapGet m id := by
  by_cases h : id = k
  · subst h
    simp [mapGet, mapSet, List.lookup_cons]
  · have hb : (id == k) = false := by simpa using h
    rw [if_neg h, ← mapGet_filter_ne m k id h]
    simp only [mapGet, mapSet, List.lookup_cons, hb]

/-- The loop over the members of one group (lines 90-92) writes `user` under
every member id and leaves the other keys as they were. -/
theorem mapGet_foldl_users (us : List String) (user : υ) (m : List (String × υ)) (id : String) :
    mapGet (us.foldl (fun users u => mapSet users u user) m) id =
      if id ∈ us then some user else mapGet m id := by
  induction us generalizing m with
  | nil => simp
  | cons u t ih =>
    rw [List.foldl_cons, ih, mapGet_mapSet]
    by_cases ht : id ∈ t
    · simp [ht]
    · by_cases hu : id = u
      · simp [hu]
      · simp [ht, hu]

theorem mapGet_foldl_groups_no_member (NewUser : Option σ → υ) (l : List (Group σ))
    (id : String) (hl : ∀ g ∈ l, id ∉ g.Users) (m : List (String × υ)) :
    mapGet (l.foldl (fun users group =>
      group.Users.foldl (fun users user => mapSet users user (NewUser group.Permissions)) users)
        m) id = mapGet m id := by
  induction l generalizing m with
  | nil => rfl
  | cons g t ih =>
    rw [List.foldl_cons, ih (fun k hk => hl k (List.mem_cons_of_mem _ hk)), mapGet_foldl_users,
      if_neg (hl g (List.mem_cons_self _ _))]

theorem mapGet_foldl_groups_last_member (NewUser : Option σ → υ) (pre : List (Group σ))
    (g : Group σ) (post : List (Group σ)) (id : String) (hg : id ∈ g.Users)
    (hpost : ∀ k ∈ post, id ∉ k.Users) (m : List (String × υ)) :
    mapGet ((pre ++ g :: post).foldl (fun users group =>
      group.Users.foldl (fun users user => mapSet users user (NewUser group.Permissions)) users)
        m) id = some (NewUser g.Permissions) := by
  rw [List.foldl_append, List.foldl_cons, mapGet_foldl_groups_no_member NewUser post id hpost,
    mapGet_foldl_users, if_pos hg]

theorem exists_last_member (id : String) (p : List (Group σ)) (h : ∃ g ∈ p, id ∈ g.Users) :
    ∃ pre g post, p = pre ++ g :: post ∧ id ∈ g.Users ∧ ∀ k ∈ post, id ∉ k.Users := by
  induction p with
  | nil =>
    obtain ⟨g, hg, _⟩ := h
    cases hg
  | cons a t ih =>
    by_cases ht : ∃ g ∈ t, id ∈ g.Users
    · obtain ⟨pre, g, post, hp, hg, hpost⟩ := ih ht
      exact ⟨a :: pre, g, post, by simp [hp], hg, hpost⟩
    · have ha : id ∈ a.Users := by
        obtain ⟨g, hg, hid⟩ := h
        rcases List.mem_cons.1 hg with rfl | hg
        · exact hid
        · exact absurd ⟨g, hg, hid⟩ ht
      exact ⟨[], a, t, rfl, ha, fun k hk hid => ht ⟨k, hk, hid⟩⟩

end UsersLemmas

/-! ## Properties of `Policy.Users` -/

/-- C9. For every policy, the keys of `Users()` are exactly the ids that some
group lists as a member; for a policy that `validatePolicy` accepts, each id
is mapped to the user built from the permissions of the group that lists it;
for the nil policy and for the policy without groups `Users()` is the empty
map (and it returns a map, never an error, in every case). -/
theorem Users_spec {σ υ : Type} (NewUser : Option σ → υ) (p : Policy σ) :
    (∀ id, mapGet (Policy.Users NewUser (some p)) id ≠ none ↔ ∃ g ∈ p, id ∈ g.Users) ∧
      (validatePolicy (some p) = none → ∀ g ∈ p, ∀ id ∈ g.Users,
        mapGet (Policy.Users NewUser (some p)) id = some (NewUser g.Permissions)) ∧
      Policy.Users NewUser (none : Option (Policy σ)) = [] ∧
      Policy.Users NewUser (some ([] : Policy σ)) = [] := by
  refine ⟨?_, ?_, rfl, rfl⟩
  · intro id
    constructor
    · intro hsome
      by_contra hno
      have hl : ∀ g ∈ p, id ∉ g.Users := fun g hg hid => hno ⟨g, hg, hid⟩
      exact hsome (mapGet_foldl_groups_no_member NewUser p id hl [])
    · intro h
      obtain ⟨pre, g, post, hp, hg, hpost⟩ := exists_last_member id p h
      subst hp
      have := mapGet_foldl_groups_last_member NewUser pre g post id hg hpost []
      show mapGet (List.foldl _ [] (pre ++ g :: post)) id ≠ none
      rw [this]
      exact fun h => by cases h
  · intro hvalid g hg id hid
    obtain ⟨_, _, hids, _⟩ := (validatePolicy_some_eq_none_iff p).1 hvalid
    obtain ⟨pre, g2, post, hp, hg2, hpost⟩ := exists_last_member id p ⟨g, hg, hid⟩
    subst hp
    have hget := mapGet_foldl_groups_last_member NewUser pre g2 post id hg2 hpost []
    have hsame : g = g2 := by
      rcases List.mem_append.1 hg with hpre | hrest
      · exfalso
        rw [List.flatMap_append, List.flatMap_cons, List.nodup_append] at hids
        exact hids.2.2 (List.mem_flatMap.2 ⟨g, hpre, hid⟩) (List.mem_append_left _ hg2)
      · rcases List.mem_cons.1 hrest with h | hpostmem
        · exact h
        · exact absurd hid (hpost g hpostmem)
    rw [hsame]
    exact hget

/-- C9 at the policy `defaultFirstPolicy`, which validation accepts: `bob` is
mapped to the user of `admins`, and `dave`, whom no group lists, is no key. -/
theorem Users_spec_witness :
    validatePolicy (some defaultFirstPolicy) = none ∧
      mapGet (Policy.Users (fun s : Option Bool => s) (some defaultFirstPolicy)) "bob" =
        some (some true) ∧
      ¬ (mapGet (Policy.Users (fun s : Option Bool => s) (some defaultFirstPolicy)) "dave" ≠
        none) :=
  have hvalid : validatePolicy (some defaultFirstPolicy) = none := by decide
  ⟨hvalid,
    (Users_spec (fun s : Option Bool => s) defaultFirstPolicy).2.1 hvalid
      ⟨some true, "admins", false, ["alice", "bob"]⟩ (by simp [defaultFirstPolicy])
      "bob" (by simp),
    fun h => by
      obtain ⟨g, hg, hid⟩ :=
        ((Users_spec (fun s : Option Bool => s) defaultFirstPolicy).1 "dave").1 h
      simp [defaultFirstPolicy] at hg
      rcases hg with rfl | rfl <;> simp at hid⟩

/-! ## Properties of `services.Duration` -/

theorem wrapInt64_of_range (x : Int) (h1 : -2 ^ 63 ≤ x) (h2 : x < 2 ^ 63) : wrapInt64 x = x := by
  unfold wrapInt64
  omega

/-- Truncating division by 100000, by the sign of the dividend. -/
theorem tdiv_hundred_micro (d : Int) :
    (0 ≤ d ∧ d.tdiv 100000 = d / 100000) ∨ (d < 0 ∧ d.tdiv 100000 = -((-d) / 100000)) := by
  by_cases h : 0 ≤ d
  · exact Or.inl ⟨h, Int.tdiv_eq_ediv h (by omega)⟩
  · refine Or.inr ⟨by omega, ?_⟩
    have h2 : d = -(-d) := by omega
    conv_lhs => rw [h2]
    rw [Int.neg_tdiv, Int.tdiv_eq_ediv (by omega) (by omega)]

theorem roundedDuration_eq (d : Int) (hlo : -2 ^ 63 ≤ d) (hhi : d < 2 ^ 63) :
    roundedDuration d = d.tdiv 100000 * 100000 := by
  have hm : (100 : Int) * Microsecond = 100000 := by decide
  unfold roundedDuration
  rw [hm]
  rcases tdiv_hundred_micro d with ⟨hd, hq⟩ | ⟨hd, hq⟩
  · rw [hq, wrapInt64_of_range (d / 100000) (by omega) (by omega),
      wrapInt64_of_range (d / 100000 * 100000) (by omega) (by omega)]
  · rw [hq, wrapInt64_of_range (-((-d) / 100000)) (by omega) (by omega),
      wrapInt64_of_range (-((-d) / 100000) * 100000) (by omega) (by omega)]

/-- C10. For every duration `d` in the range of `int64`, `Duration(d)` is the
string form of `d2 = (d / 100µs) * 100µs`, the division truncating toward
zero and no operation overflowing: `d2` is a multiple of 100000 ns, differs
from `d` by less than 100000 ns, is no larger than `d` in absolute value, and
is `d` itself when `d` is a multiple of 100000 ns. -/
theorem Duration_rounds (durationString : Int → String) (d : Int) (hlo : -2 ^ 63 ≤ d)
    (hhi : d < 2 ^ 63) :
    Duration durationString d = durationString (d.tdiv 100000 * 100000) ∧
      roundedDuration d = d.tdiv 100000 * 100000 ∧
      (100000 : Int) ∣ roundedDuration d ∧
      |d - roundedDuration d| < 100000 ∧
      |roundedDuration d| ≤ |d| ∧
      ((100000 : Int) ∣ d → roundedDuration d = d) := by
  have heq := roundedDuration_eq d hlo hhi
  refine ⟨by rw [Duration, heq], heq, ?_, ?_, ?_, ?_⟩
  · rw [heq]
    exact Dvd.intro_left _ rfl
  · rw [heq, abs_lt]
    rcases tdiv_hundred_micro d with ⟨hd, hq⟩ | ⟨hd, hq⟩ <;> rw [hq] <;> constructor <;> omega
  · rw [heq]
    rcases tdiv_hundred_micro d with ⟨hd, hq⟩ | ⟨hd, hq⟩
    · rw [hq, abs_of_nonneg hd, abs_of_nonneg (by omega)]
      omega
    · rw [hq, abs_of_neg hd, abs_of_nonpos (by omega)]
      omega
  · rintro ⟨k, hk⟩
    rw [heq]
    rcases tdiv_hundred_micro d with ⟨hd, hq⟩ | ⟨hd, hq⟩ <;> rw [hq] <;> omega

/-- C10 at `d = -1234567 ns`: the rounded value is `-1200000 ns`. -/
theorem Duration_rounds_witness :
    (-2 ^ 63 : Int) ≤ -1234567 ∧ (-1234567 : Int) < 2 ^ 63 ∧
      roundedDuration (-1234567) = -1200000 ∧
      Duration (fun n => toString n) (-1234567) = "-1200000" :=
  have hlo : (-2 ^ 63 : Int) ≤ -1234567 := by decide
  have hhi : (-1234567 : Int) < 2 ^ 63 := by decide
  ⟨hlo, hhi,
    (Duration_rounds (fun n => toString n) (-1234567) hlo hhi).2.1.trans (by decide),
    (Duration_rounds (fun n => toString n) (-1234567) hlo hhi).1.trans (by decide)⟩

/-! ## The policies `validatePolicy` accepts -/

/-- C11. `validatePolicy` returns an error for every policy in which some group
lists an id twice among its own members, also when no other group lists that
id; and it returns nil exactly when every group name is non-empty, the group
names are pairwise distinct, no id occurs twice anywhere in the policy, and at
most one group is marked default (the nil policy is accepted as well). -/
theorem validatePolicy_nil_iff {σ : Type} (p : Policy σ) :
    ((∃ g ∈ p, ∃ u, 2 ≤ g.Users.count u) → ∃ e, validatePolicy (some p) = some e) ∧
      (validatePolicy (some p) = none ↔
        (∀ g ∈ p, g.Name ≠ "") ∧ p.Pairwise (fun a b => a.Name ≠ b.Name) ∧
          (p.flatMap (fun g => g.Users)).Nodup ∧ p.countP (fun g => g.Default) ≤ 1) ∧
      validatePolicy (none : Option (Policy σ)) = none := by
  refine ⟨?_, ?_, rfl⟩
  · rintro ⟨g, hg, u, hu⟩
    cases hv : validatePolicy (some p) with
    | some e => exact ⟨e, rfl⟩
    | none =>
      exfalso
      obtain ⟨_, _, hids, _⟩ := (validatePolicy_some_eq_none_iff p).1 hv
      have hnd : g.Users.Nodup := (List.nodup_flatMap.1 hids).1 g hg
      have hle := List.nodup_iff_count_le_one.1 hnd u
      omega
  · rw [validatePolicy_some_eq_none_iff p]
    constructor
    · rintro ⟨h1, h2, h3, h4⟩
      exact ⟨h1, List.pairwise_map.1 h2, h3, h4⟩
    · rintro ⟨h1, h2, h3, h4⟩
      exact ⟨h1, List.pairwise_map.2 h2, h3, h4⟩

/-- C11 at the policy of one group that lists `bob` twice: validation returns
the error of line 126 for `bob`. -/
theorem validatePolicy_nil_iff_witness :
    (∃ g ∈ bobTwiceInOneGroup, ∃ u, 2 ≤ g.Users.count u) ∧
      validatePolicy (some bobTwiceInOneGroup) = some "User bob appears twice in the list" ∧
      ∃ e, validatePolicy (some bobTwiceInOneGroup) = some e :=
  have htwice : ∃ g ∈ bobTwiceInOneGroup, ∃ u, 2 ≤ g.Users.count u :=
    ⟨⟨some true, "admins", false, ["alice", "bob", "bob"]⟩, by simp [bobTwiceInOneGroup],
      "bob", by decide⟩
  ⟨htwice, by decide, (validatePolicy_nil_iff bobTwiceInOneGroup).1 htwice⟩

/-! ## `getSecretKey` on text with characters of more than one byte -/

/-- C7 as worded in characters fails. The text `é` followed by 62 digits `0`
has 63 characters but 64 bytes: `getSecretKey` returns the decoder's error for
the byte `0xC3`, not `errWrongLength`. The text of 63 digits `0` followed by
`é` has 64 characters, one of them no hexadecimal digit, but 65 bytes:
`getSecretKey` returns `errWrongLength`, not a decode error. Hence the claim
read over characters does not hold for every text. -/
theorem getSecretKey_characters_counterexample :
    (eAcuteThenZeros.length = 63 ∧ eAcuteThenZeros ≠ "" ∧
        (stringBytes eAcuteThenZeros).length = 64 ∧
        getSecretKey [] (stringBytes eAcuteThenZeros) = .error (.InvalidByteError 195)) ∧
      (zerosThenEAcute.length = 64 ∧ (∃ c ∈ zerosThenEAcute.data, ¬ IsHexDigit c.toNat) ∧
        (stringBytes zerosThenEAcute).length = 65 ∧
        getSecretKey [] (stringBytes zerosThenEAcute) = .error .errWrongLength) ∧
      ¬ (∀ (NewRandomKey : List Nat) (s : String),
        (s ≠ "" → s.length ≠ 64 →
          getSecretKey NewRandomKey (stringBytes s) = .error .errWrongLength) ∧
        (s.length = 64 → (∃ c ∈ s.data, ¬ IsHexDigit c.toNat) →
          ∃ b, getSecretKey NewRandomKey (stringBytes s) = .error (.InvalidByteError b))) := by
  have h63 : getSecretKey [] (stringBytes eAcuteThenZeros) = .error (.InvalidByteError 195) := rfl
  have h64 : getSecretKey [] (stringBytes zerosThenEAcute) = .error .errWrongLength := rfl
  refine ⟨⟨by decide, by decide, by decide, h63⟩,
    ⟨by decide, ⟨Char.ofNat 233, by decide, by decide⟩, by decide, h64⟩, ?_⟩
  intro hall
  have h := (hall [] eAcuteThenZeros).1 (by decide) (by decide)
  rw [h63] at h
  cases h

end Logrole
